import Mathlib

/-!
Verification of the topoQ quantum-simulator core against its specification.

The Python sources (`topoQ/utils.py`, `qubit.py`, `gates.py`, `circuit.py`,
`simulation.py`, `optimizer.py`, `stabilizer.py`) are shallowly embedded here.
All exact complex arithmetic of the simulator lives in the ring ℚ(√2, i):
every matrix entry the core produces (Pauli entries, 1/√2 factors of the
Hadamard and of X-basis measurement, the T-gate phase (1+i)/√2) lies in this
ring, so floating-point matrices are embedded as exact values and numpy's
tolerance tests (`np.allclose`) become exact equality.  The braiding gate,
whose entries cos θ, sin θ range over all reals, is embedded separately over ℂ.
Randomness (`np.random.choice`, one uniform draw per sample) is embedded by
threading an explicit stream of rational draws in [0, 1).  Python exceptions
are embedded as `Except String`.
-/

instance {ε α : Type} [DecidableEq ε] [DecidableEq α] : DecidableEq (Except ε α) :=
  fun u v =>
  match u, v with
  | .ok x, .ok y => if h : x = y then .isTrue (by rw [h]) else .isFalse (by simp [h])
  | .error e, .error f => if h : e = f then .isTrue (by rw [h]) else .isFalse (by simp [h])
  | .ok _, .error _ => .isFalse (by simp)
  | .error _, .ok _ => .isFalse (by simp)

namespace TopoQ

/-- ASCII uppercase of one character; the embedding of Python's `str.upper()`
restricted to ASCII, which is all the gate/basis/Pauli labels use. -/
def asciiUpperChar (c : Char) : Char :=
  if 'a' ≤ c ∧ c ≤ 'z' then Char.ofNat (c.toNat - 32) else c

/-- The embedding of `s.upper()` on label strings. -/
def asciiUpper (s : String) : String := ⟨s.data.map asciiUpperChar⟩

/-- An element a + b√2 + (c + d√2)·i of the ring ℚ(√2, i), the exact scalar
field in which all statically-known matrix entries of topoQ live. -/
@[ext]
structure K4 where
  a : ℚ
  b : ℚ
  c : ℚ
  d : ℚ
deriving DecidableEq

namespace K4

def add (x y : K4) : K4 := ⟨x.a + y.a, x.b + y.b, x.c + y.c, x.d + y.d⟩

def neg (x : K4) : K4 := ⟨-x.a, -x.b, -x.c, -x.d⟩

/-- Multiplication in ℚ(√2, i), using √2·√2 = 2 and i·i = -1. -/
def mul (x y : K4) : K4 :=
  ⟨x.a * y.a + 2 * x.b * y.b - x.c * y.c - 2 * x.d * y.d,
   x.a * y.b + x.b * y.a - x.c * y.d - x.d * y.c,
   x.a * y.c + 2 * x.b * y.d + x.c * y.a + 2 * x.d * y.b,
   x.a * y.d + x.b * y.c + x.c * y.b + x.d * y.a⟩

/-- Complex conjugation on ℚ(√2, i). -/
def conj (x : K4) : K4 := ⟨x.a, x.b, -x.c, -x.d⟩

instance : Zero K4 := ⟨⟨0, 0, 0, 0⟩⟩

instance : One K4 := ⟨⟨1, 0, 0, 0⟩⟩

instance : Add K4 := ⟨add⟩

instance : Neg K4 := ⟨neg⟩

instance : Mul K4 := ⟨mul⟩

theorem add_assoc_def (x y z : K4) : add (add x y) z = add x (add y z) := by
  ext <;> simp [add] <;> ring

theorem add_comm_def (x y : K4) : add x y = add y x := by
  ext <;> simp [add] <;> ring

theorem zero_add_def (x : K4) : add ⟨0, 0, 0, 0⟩ x = x := by
  ext <;> simp [add]

theorem add_zero_def (x : K4) : add x ⟨0, 0, 0, 0⟩ = x := by
  ext <;> simp [add]

theorem neg_add_cancel_def (x : K4) : add (neg x) x = ⟨0, 0, 0, 0⟩ := by
  ext <;> simp [add, neg]

theorem mul_assoc_def (x y z : K4) : mul (mul x y) z = mul x (mul y z) := by
  ext <;> simp [mul] <;> ring

theorem mul_comm_def (x y : K4) : mul x y = mul y x := by
  ext <;> simp [mul] <;> ring

theorem one_mul_def (x : K4) : mul ⟨1, 0, 0, 0⟩ x = x := by
  ext <;> simp [mul]

theorem mul_one_def (x : K4) : mul x ⟨1, 0, 0, 0⟩ = x := by
  ext <;> simp [mul]

theorem zero_mul_def (x : K4) : mul ⟨0, 0, 0, 0⟩ x = ⟨0, 0, 0, 0⟩ := by
  ext <;> simp [mul]

theorem mul_zero_def (x : K4) : mul x ⟨0, 0, 0, 0⟩ = ⟨0, 0, 0, 0⟩ := by
  ext <;> simp [mul]

theorem left_distrib_def (x y z : K4) : mul x (add y z) = add (mul x y) (mul x z) := by
  ext <;> simp [mul, add] <;> ring

theorem right_distrib_def (x y z : K4) : mul (add x y) z = add (mul x z) (mul y z) := by
  ext <;> simp [mul, add] <;> ring

instance : CommRing K4 where
  add := add
  zero := ⟨0, 0, 0, 0⟩
  neg := neg
  mul := mul
  one := ⟨1, 0, 0, 0⟩
  nsmul := nsmulRec
  zsmul := zsmulRec
  add_assoc := add_assoc_def
  zero_add := zero_add_def
  add_zero := add_zero_def
  add_comm := add_comm_def
  neg_add_cancel := neg_add_cancel_def
  mul_assoc := mul_assoc_def
  one_mul := one_mul_def
  mul_one := mul_one_def
  zero_mul := zero_mul_def
  mul_zero := mul_zero_def
  mul_comm := mul_comm_def
  left_distrib := left_distrib_def
  right_distrib := right_distrib_def

@[simp] theorem zero_a : (0 : K4).a = 0 := rfl

@[simp] theorem zero_b : (0 : K4).b = 0 := rfl

@[simp] theorem zero_c : (0 : K4).c = 0 := rfl

@[simp] theorem zero_d : (0 : K4).d = 0 := rfl

@[simp] theorem one_a : (1 : K4).a = 1 := rfl

@[simp] theorem one_b : (1 : K4).b = 0 := rfl

@[simp] theorem one_c : (1 : K4).c = 0 := rfl

@[simp] theorem one_d : (1 : K4).d = 0 := rfl

@[simp] theorem add_a (x y : K4) : (x + y).a = x.a + y.a := rfl

@[simp] theorem add_b (x y : K4) : (x + y).b = x.b + y.b := rfl

@[simp] theorem add_c (x y : K4) : (x + y).c = x.c + y.c := rfl

@[simp] theorem add_d (x y : K4) : (x + y).d = x.d + y.d := rfl

@[simp] theorem neg_a (x : K4) : (-x).a = -x.a := rfl

@[simp] theorem neg_b (x : K4) : (-x).b = -x.b := rfl

@[simp] theorem neg_c (x : K4) : (-x).c = -x.c := rfl

@[simp] theorem neg_d (x : K4) : (-x).d = -x.d := rfl

@[simp] theorem mul_a (x y : K4) :
    (x * y).a = x.a * y.a + 2 * x.b * y.b - x.c * y.c - 2 * x.d * y.d := rfl

@[simp] theorem mul_b (x y : K4) :
    (x * y).b = x.a * y.b + x.b * y.a - x.c * y.d - x.d * y.c := rfl

@[simp] theorem mul_c (x y : K4) :
    (x * y).c = x.a * y.c + 2 * x.b * y.d + x.c * y.a + 2 * x.d * y.b := rfl

@[simp] theorem mul_d (x y : K4) :
    (x * y).d = x.a * y.d + x.b * y.c + x.c * y.b + x.d * y.a := rfl

instance : StarRing K4 where
  star := conj
  star_involutive x := by ext <;> simp [conj]
  star_mul x y := by ext <;> simp [conj] <;> ring
  star_add x y := by ext <;> simp [conj] <;> ring

@[simp] theorem star_a (x : K4) : (star x).a = x.a := rfl

@[simp] theorem star_b (x : K4) : (star x).b = x.b := rfl

@[simp] theorem star_c (x : K4) : (star x).c = -x.c := rfl

@[simp] theorem star_d (x : K4) : (star x).d = -x.d := rfl

/-- The imaginary unit i in ℚ(√2, i). -/
def im : K4 := ⟨0, 0, 1, 0⟩

/-- 1/√2 = √2/2 in ℚ(√2, i); the normalization factor of the Hadamard gate
and of the X-basis rotation in `Tetron.measure`. -/
def invSqrt2 : K4 := ⟨0, 1/2, 0, 0⟩

end K4

/-- A real value a + b√2 ∈ ℚ(√2): the exact form of every probability and
expectation real-part the simulator compares against thresholds. -/
@[ext]
structure Rs2 where
  x : ℚ
  y : ℚ
deriving DecidableEq

namespace Rs2

def add (u v : Rs2) : Rs2 := ⟨u.x + v.x, u.y + v.y⟩

/-- Exact test for a + b√2 > 0, the embedding of a float comparison `> 0`
against a value that is exactly a + b√2. -/
def isPos (u : Rs2) : Bool :=
  if u.y = 0 then decide (0 < u.x)
  else if 0 < u.y then decide (0 ≤ u.x) || decide (u.x ^ 2 < 2 * u.y ^ 2)
  else decide (0 < u.x) && decide (2 * u.y ^ 2 < u.x ^ 2)

/-- Embedding of `r < p` for a rational uniform draw r against an exact
probability p = a + b√2 (the comparison inside `np.random.choice`). -/
def ltQ (r : ℚ) (p : Rs2) : Bool := isPos ⟨p.x - r, p.y⟩

end Rs2

/-- Real part of an element of ℚ(√2, i), as an element of ℚ(√2); the embedding
of `np.real`. -/
def K4.rePart (z : K4) : Rs2 := ⟨z.a, z.b⟩

/-- Squared magnitude |z|² of an entry, as the exact real a + b√2; the
embedding of `np.abs(z) ** 2`. -/
def K4.normSq (z : K4) : Rs2 := K4.rePart (star z * z)

/-- 2×2 complex matrices over ℚ(√2, i), the type of every single-qubit gate
matrix the simulator handles. -/
abbrev Mat2 : Type := Matrix (Fin 2) (Fin 2) K4

/-- Conjugate transpose, the embedding of `matrix.conj().T`. -/
def Mat2.dagger (A : Mat2) : Mat2 := Matrix.conjTranspose A

/-- The four canonical Pauli matrices (`utils.pauli_operator`, lines 13-22). -/
def pauliI : Mat2 := !![1, 0; 0, 1]

def pauliX : Mat2 := !![0, 1; 1, 0]

def pauliY : Mat2 := !![0, -K4.im; K4.im, 0]

def pauliZ : Mat2 := !![1, 0; 0, -1]

/-- Embedding of `utils.pauli_operator`: uppercases the label, returns the
canonical Pauli matrix for I/X/Y/Z and raises `ValueError` otherwise. -/
def pauli_operator (op : String) : Except String Mat2 :=
  let u := asciiUpper op
  if u = "I" then .ok pauliI
  else if u = "X" then .ok pauliX
  else if u = "Y" then .ok pauliY
  else if u = "Z" then .ok pauliZ
  else .error "Unsupported Pauli operator. Choose from I, X, Y, Z."

/-- The Hadamard matrix of `CliffordGate.get_matrix("H")`: (1/√2)·[[1,1],[1,-1]]. -/
def Hmat : Mat2 := !![K4.invSqrt2, K4.invSqrt2; K4.invSqrt2, -K4.invSqrt2]

/-- The phase matrix of `CliffordGate.get_matrix("S")`: diag(1, i). -/
def Smat : Mat2 := !![1, 0; 0, K4.im]

/-- The T-gate matrix `diag(1, exp(iπ/4))`; exp(iπ/4) = (1+i)/√2 = √2/2 + (√2/2)i
lies in ℚ(√2, i). -/
def Tmat : Mat2 := !![1, 0; 0, ⟨0, 1/2, 0, 1/2⟩]

/-- A qubit state vector (amplitudes of |0⟩ and |1⟩), `Tetron.state`. -/
abbrev Vec2 : Type := Fin 2 → K4

/-- The |0⟩ state [1, 0]: the `Tetron` initial and reset state. -/
def e0 : Vec2 := ![1, 0]

/-- The |1⟩ state [0, 1]. -/
def e1 : Vec2 := ![0, 1]

/-- The +1 X-eigenstate [1, 1]/√2, the collapse target for X-outcome 0. -/
def xPlus : Vec2 := ![K4.invSqrt2, K4.invSqrt2]

/-- The -1 X-eigenstate [1, -1]/√2, the collapse target for X-outcome 1. -/
def xMinus : Vec2 := ![K4.invSqrt2, -K4.invSqrt2]

/-- Inner product ⟨u|v⟩ = Σᵢ conj(uᵢ)·vᵢ, the embedding of `np.vdot` on
2-vectors. -/
def vdot2 (u v : Vec2) : K4 := star (u 0) * v 0 + star (u 1) * v 1

/-- Embedding of `Tetron.apply_single_qubit_gate` in the default state-vector
mode: `state ← gate_matrix @ state` (no renormalization in the source). -/
def applyGate (gateMatrix : Mat2) (st : Vec2) : Vec2 :=
  Matrix.mulVec gateMatrix st

/-- Embedding of `Tetron.measure(basis)`.  `r` is the uniform draw in [0, 1)
consumed by `np.random.choice([0, 1], p=probs)`: the sampled outcome is 0 iff
r < p₀ (and `np.random.choice` raises if the probabilities do not sum to 1).
Returns the outcome together with the collapsed state. -/
def measureTetron (basis : String) (st : Vec2) (r : ℚ) : Except String (ℕ × Vec2) :=
  if asciiUpper basis = "Z" then
    let p0 := K4.normSq (st 0)
    let p1 := K4.normSq (st 1)
    if Rs2.add p0 p1 = ⟨1, 0⟩ then
      let outcome : ℕ := if Rs2.ltQ r p0 then 0 else 1
      .ok (outcome, if outcome = 0 then e0 else e1)
    else .error "probabilities do not sum to 1"
  else if asciiUpper basis = "X" then
    let s0 := K4.invSqrt2 * (st 0 + st 1)
    let s1 := K4.invSqrt2 * (st 0 - st 1)
    let p0 := K4.normSq s0
    let p1 := K4.normSq s1
    if Rs2.add p0 p1 = ⟨1, 0⟩ then
      let outcome : ℕ := if Rs2.ltQ r p0 then 0 else 1
      .ok (outcome, if outcome = 0 then xPlus else xMinus)
    else .error "probabilities do not sum to 1"
  else .error "Unsupported basis. Choose X or Z."

/-- Embedding of `Tetron.reset`: the state returns to |0⟩. -/
def resetTetron (_st : Vec2) : Vec2 := e0

unseal Rat.add Rat.mul Rat.inv Rat.sub in
/-- C3: for every label that is I, X, Y or Z in any letter case, `pauli(name)`
returns the canonical 2×2 complex Pauli matrix, which is Hermitian, unitary
and squares to the identity; for every other label it fails with the
invalid-operator `ValueError`.  The embedding is a pure function, mirroring
the side-effect-free source. -/
theorem pauli_operator_contract (s : String) :
    (asciiUpper s = "I" → pauli_operator s = .ok pauliI) ∧
    (asciiUpper s = "X" → pauli_operator s = .ok pauliX) ∧
    (asciiUpper s = "Y" → pauli_operator s = .ok pauliY) ∧
    (asciiUpper s = "Z" → pauli_operator s = .ok pauliZ) ∧
    (∀ M, pauli_operator s = .ok M →
      Matrix.conjTranspose M = M ∧ Matrix.conjTranspose M * M = 1 ∧ M * M = 1) ∧
    (asciiUpper s ≠ "I" → asciiUpper s ≠ "X" → asciiUpper s ≠ "Y" → asciiUpper s ≠ "Z" →
      pauli_operator s = .error "Unsupported Pauli operator. Choose from I, X, Y, Z.") := by
  simp only [pauli_operator]
  split_ifs with h1 h2 h3 h4 <;>
    refine ⟨fun h => by simp_all, fun h => by simp_all, fun h => by simp_all,
      fun h => by simp_all, fun M hM => ?_, fun g1 g2 g3 g4 => by simp_all⟩
  · injection hM with h; subst h; decide
  · injection hM with h; subst h; decide
  · injection hM with h; subst h; decide
  · injection hM with h; subst h; decide
  · simp at hM

unseal Rat.add Rat.mul Rat.inv Rat.sub in
/-- Witness for C3 at the lowercase label "y". -/
theorem pauli_operator_contract_witness :
    pauli_operator "y" = .ok pauliY ∧ Matrix.conjTranspose pauliY * pauliY = 1 := by
  have hy := (pauli_operator_contract "y").2.2.1 (by decide)
  exact ⟨hy, (((pauli_operator_contract "y").2.2.2.2.1 pauliY hy).2.1)⟩

/-- A `Circuit` operation (the tuples built by `Circuit.apply_gate`,
`apply_multi_qubit_gate`, `measure` and `reset` in circuit.py).  Gate objects
are embedded by their `matrix()` value, the only thing `Circuit.run` and the
optimizer ever read from them; the multi-gate variant records only its qubit
index list because `Circuit.run` treats it as a stub. -/
inductive COp where
  | gate (q : ℕ) (m : Mat2)
  | multiGate (qs : List ℕ)
  | measureOp (q : ℕ) (basis : String)
  | resetOp (q : ℕ)
deriving DecidableEq

/-- The mutable state of a `Circuit`: its qubit list (each a `Tetron` state
vector) and its recorded operation list. -/
structure CircuitState where
  qubits : List Vec2
  operations : List COp
deriving DecidableEq

/-- Embedding of `Circuit.clear_operations`. -/
def clear_operations (c : CircuitState) : CircuitState := { c with operations := [] }

/-- One pass of `Circuit.run` over an operation list (circuit.py lines 46-60):
threads the qubit states, the int-keyed measurement-results dict `res`, the
multi-gate stub log `ml` (string-keyed entries in the source, which the
aggregation's integer lookups never see) and the random-draw cursor `k`.
Out-of-range qubit indexing raises `IndexError`. -/
def runOps (rng : ℕ → ℚ) (ops : List COp) (qs : List Vec2) (k : ℕ)
    (res : ℕ → Option ℕ) (ml : List (List ℕ)) :
    Except String ((ℕ → Option ℕ) × List (List ℕ) × List Vec2 × ℕ) :=
  match ops with
  | [] => .ok (res, ml, qs, k)
  | COp.gate q m :: rest =>
    match qs.get? q with
    | none => .error "IndexError: qubit index out of range"
    | some st => runOps rng rest (qs.set q (applyGate m st)) k res ml
  | COp.multiGate idxs :: rest => runOps rng rest qs k res (ml ++ [idxs])
  | COp.measureOp q basis :: rest =>
    match qs.get? q with
    | none => .error "IndexError: qubit index out of range"
    | some st =>
      match measureTetron basis st (rng k) with
      | .error e => .error e
      | .ok (outcome, st2) =>
        runOps rng rest (qs.set q st2) (k + 1)
          (fun i => if i = q then some outcome else res i) ml
  | COp.resetOp q :: rest =>
    match qs.get? q with
    | none => .error "IndexError: qubit index out of range"
    | some _ => runOps rng rest (qs.set q e0) k res ml

/-- Embedding of `Circuit.run`: replay the recorded operations against the
current qubit states, starting from an empty results dict. -/
def circuitRun (rng : ℕ → ℚ) (c : CircuitState) (k : ℕ) :
    Except String ((ℕ → Option ℕ) × List (List ℕ) × List Vec2 × ℕ) :=
  runOps rng c.operations c.qubits k (fun _ => none) []

/-- The per-shot outcome key
`tuple(shot.get(i, None) for i in range(len(self.circuit.qubits)))`. -/
def shotKey (numQubits : ℕ) (res : ℕ → Option ℕ) : List (Option ℕ) :=
  (List.range numQubits).map res

/-- One dict update `histogram[key] = histogram.get(key, 0) + 1`, on an
insertion-ordered association list. -/
def histAdd (h : List (List (Option ℕ) × ℕ)) (key : List (Option ℕ)) :
    List (List (Option ℕ) × ℕ) :=
  if h.any (fun p => p.1 = key) then
    h.map (fun p => if p.1 = key then (p.1, p.2 + 1) else p)
  else h ++ [(key, 1)]

/-- Embedding of `Simulation.aggregate_results`. -/
def aggregate_results (numQubits : ℕ) (results : List (ℕ → Option ℕ)) :
    List (List (Option ℕ) × ℕ) :=
  results.foldl (fun h shot => histAdd h (shotKey numQubits shot)) []

/-- The shot loop of `Simulation.run` (simulation.py lines 31-38): each
iteration calls `self.circuit.clear_operations()` and then
`self.circuit.run()`, collecting the per-shot result dicts. -/
def simShots (rng : ℕ → ℚ) : ℕ → CircuitState → ℕ → List (ℕ → Option ℕ) →
    Except String (List (ℕ → Option ℕ) × CircuitState × ℕ)
  | 0, c, k, acc => .ok (acc, c, k)
  | n + 1, c, k, acc =>
    let c1 := clear_operations c
    match circuitRun rng c1 k with
    | .error e => .error e
    | .ok (res, _ml, qs, k2) =>
      simShots rng n { qubits := qs, operations := c1.operations } k2 (acc ++ [res])

/-- Embedding of `Simulation.run(shots)` with no assignment-error model
configured (the `None` default): `range(shots)` iterates `shots.toNat` times,
then the shot results are aggregated into the histogram. -/
def simRun (rng : ℕ → ℚ) (c : CircuitState) (shots : ℤ) :
    Except String (List (List (Option ℕ) × ℕ) × CircuitState × ℕ) :=
  match simShots rng shots.toNat c 0 [] with
  | .error e => .error e
  | .ok (results, c2, k) => .ok (aggregate_results c2.qubits.length results, c2, k)

/-- A single shot with the operations cleared first executes nothing: the
unfolding of one `Simulation.run` loop iteration. -/
theorem simShots_step (rng : ℕ → ℚ) (n : ℕ) (c : CircuitState) (k : ℕ)
    (acc : List (ℕ → Option ℕ)) :
    simShots rng (n + 1) c k acc =
      simShots rng n { qubits := c.qubits, operations := [] } k
        (acc ++ [fun _ => none]) := rfl

theorem simShots_succ_closed (rng : ℕ → ℚ) (n : ℕ) :
    ∀ (c : CircuitState) (k : ℕ) (acc : List (ℕ → Option ℕ)),
      simShots rng (n + 1) c k acc =
        .ok (acc ++ List.replicate (n + 1) (fun _ => none),
             { qubits := c.qubits, operations := [] }, k) := by
  induction n with
  | zero => intro c k acc; rfl
  | succ m ih =>
    intro c k acc
    rw [simShots_step, ih]
    simp [List.replicate_succ]

theorem shotKey_none (nq : ℕ) : shotKey nq (fun _ => none) = List.replicate nq none := by
  simp [shotKey, List.map_const']

theorem aggregate_results_replicate (nq : ℕ) (S : ℕ) (hS : 1 ≤ S) :
    aggregate_results nq (List.replicate S (fun _ => none)) =
      [(List.replicate nq none, S)] := by
  obtain ⟨m, rfl⟩ : ∃ m, S = m + 1 := ⟨S - 1, (Nat.succ_pred_eq_of_pos hS).symm⟩
  have key : ∀ (j c : ℕ),
      List.foldl (fun h shot => histAdd h (shotKey nq shot))
        [(List.replicate nq none, c)] (List.replicate j (fun _ => none)) =
        [(List.replicate nq none, c + j)] := by
    intro j
    induction j with
    | zero => intro c; simp
    | succ i ih =>
      intro c
      rw [List.replicate_succ, List.foldl_cons, shotKey_none]
      have : histAdd [(List.replicate nq none, c)] (List.replicate nq none) =
          [(List.replicate nq none, c + 1)] := by simp [histAdd]
      rw [this, ih]
      ring_nf
  rw [aggregate_results, List.replicate_succ, List.foldl_cons, shotKey_none]
  have h0 : histAdd [] (List.replicate nq none) = [(List.replicate nq none, 1)] := by
    simp [histAdd]
  rw [h0, key]
  simp [Nat.add_comm]

/-- C10: for every circuit and every shots ≥ 1, `Simulation.run` calls
`clear_operations()` at the start of each shot, so every shot (in particular
every shot after the first) executes zero operations: the returned histogram
has the single all-`None` key with count `shots`, the qubit states and the
random cursor are untouched, the circuit's operation list is empty when `run`
returns, and a subsequent `Circuit.run` on the resulting circuit performs no
gate, measurement or reset (empty result dict, unchanged qubits, no random
draws consumed). -/
theorem simulation_run_clears_operations (rng : ℕ → ℚ) (c : CircuitState) (shots : ℤ)
    (h : 1 ≤ shots) :
    simRun rng c shots =
      .ok ([(List.replicate c.qubits.length none, shots.toNat)],
           { qubits := c.qubits, operations := [] }, 0) ∧
    (∀ k, circuitRun rng { qubits := c.qubits, operations := [] } k =
      .ok (fun _ => none, [], c.qubits, k)) := by
  refine ⟨?_, fun k => rfl⟩
  have h1 : shots.toNat = (shots.toNat - 1) + 1 := by omega
  unfold simRun
  rw [h1, simShots_succ_closed]
  show Except.ok _ = _
  rw [List.nil_append, aggregate_results_replicate _ _ (Nat.le_add_left 1 _)]

unseal Rat.add Rat.mul Rat.inv Rat.sub in
/-- C1 (code bug): `Simulation.run` clears the circuit's operation list
*before* running each shot (simulation.py line 33), so on the deterministic
one-qubit circuit [reset 0, measure 0 in Z] with 3 shots it executes no
operation at all and returns the histogram with single key `(None,)` and
count 3 — not the key `(0,)` the specification promises. -/
theorem simulation_run_deterministic_histogram_bug :
    simRun (fun _ => 0) ⟨[e0], [COp.resetOp 0, COp.measureOp 0 "Z"]⟩ 3 =
      .ok ([([none], 3)], ⟨[e0], []⟩, 0) ∧
    ([([none], 3)] : List (List (Option ℕ) × ℕ)) ≠ [([some 0], 3)] :=
  ⟨by decide, by decide⟩

unseal Rat.add Rat.mul Rat.inv Rat.sub in
/-- C9 counterexample: `Simulation.run(shots=0)` does not fail with a
validation error; it returns successfully with the empty histogram. -/
theorem simulation_run_zero_shots_counterexample :
    simRun (fun _ => 0) ⟨[e0], [COp.measureOp 0 "Z"]⟩ 0 =
      .ok ([], ⟨[e0], [COp.measureOp 0 "Z"]⟩, 0) := by decide

/-- C9 amended: for every shots ≤ 0, `Simulation.run` executes zero loop
iterations (`range(shots)` is empty) and returns successfully with an empty
histogram, leaving the circuit untouched; no validation error is raised. -/
theorem simulation_run_nonpositive_shots (rng : ℕ → ℚ) (c : CircuitState) (shots : ℤ)
    (h : shots ≤ 0) :
    simRun rng c shots = .ok ([], c, 0) := by
  have h0 : shots.toNat = 0 := Int.toNat_of_nonpos h
  unfold simRun
  rw [h0]
  rfl

/-- Witness for C9's amended claim at shots = -5. -/
theorem simulation_run_nonpositive_shots_witness :
    simRun (fun _ => 0) ⟨[e0], []⟩ (-5) = .ok ([], ⟨[e0], []⟩, 0) :=
  simulation_run_nonpositive_shots _ _ _ (by decide)

unseal Rat.add Rat.mul Rat.inv Rat.sub in
/-- Witness for C10 on a concrete reset-and-measure circuit with 2 shots. -/
theorem simulation_run_clears_operations_witness :
    simRun (fun _ => 0) ⟨[e0], [COp.resetOp 0, COp.measureOp 0 "Z"]⟩ 2 =
      .ok ([([none], 2)], ⟨[e0], []⟩, 0) ∧
    circuitRun (fun _ => 0) ⟨[e0], []⟩ 0 = .ok (fun _ => none, [], [e0], 0) := by
  have h := simulation_run_clears_operations (fun _ => 0)
    ⟨[e0], [COp.resetOp 0, COp.measureOp 0 "Z"]⟩ 2 (by decide)
  exact ⟨h.1, h.2 0⟩

/-- The inner while loop of `optimize_circuit` (optimizer.py lines 24-27):
starting from the running product `acc`, absorb every immediately following
single-qubit gate on qubit `q`, left-multiplying each absorbed matrix onto the
running product, and return the final product with the unconsumed suffix. -/
def mergeRun (q : ℕ) (acc : Mat2) : List COp → Mat2 × List COp
  | [] => (acc, [])
  | op :: rest =>
    match op with
    | COp.gate q2 m => if q2 = q then mergeRun q (m * acc) rest else (acc, op :: rest)
    | _ => (acc, op :: rest)

theorem mergeRun_rest_length (q : ℕ) :
    ∀ (l : List COp) (acc : Mat2), (mergeRun q acc l).2.length ≤ l.length := by
  intro l
  induction l with
  | nil => intro acc; simp [mergeRun]
  | cons op rest ih =>
    intro acc
    cases op with
    | gate q2 m =>
      by_cases hq : q2 = q
      · subst hq
        simp only [mergeRun, if_pos rfl]
        exact le_trans (ih (m * acc)) (Nat.le_succ _)
      · simp [mergeRun, hq]
    | multiGate qs => simp [mergeRun]
    | measureOp q2 basis => simp [mergeRun]
    | resetOp q2 => simp [mergeRun]

/-- The outer scan of `optimize_circuit` (optimizer.py lines 18-35) on the
operation list: merge each run of consecutive same-qubit gates, drop the run
when the merged matrix equals the identity (`np.allclose` made exact), wrap it
in a single generic gate otherwise, and copy non-gate operations through. -/
def optimizeOps : List COp → List COp
  | [] => []
  | op :: rest =>
    match op with
    | COp.gate q m =>
      (if (mergeRun q m rest).1 = 1 then [] else [COp.gate q (mergeRun q m rest).1]) ++
        optimizeOps (mergeRun q m rest).2
    | _ => op :: optimizeOps rest
termination_by l => l.length
decreasing_by
  · exact Nat.lt_succ_of_le (mergeRun_rest_length q rest m)
  · simp

/-- Embedding of `optimize_circuit`: the operation list is rewritten in place,
the qubit objects are untouched. -/
def optimize_circuit (c : CircuitState) : CircuitState :=
  { c with operations := optimizeOps c.operations }

/-- Whether an operation is a single-qubit gate on qubit index `q`. -/
def isGateOn (q : ℕ) : COp → Bool
  | COp.gate q2 _ => q2 = q
  | _ => false

/-- The matrix of a gate operation (identity on non-gate operations, on which
it is never used). -/
def matOf : COp → Mat2
  | COp.gate _ m => m
  | _ => 1

theorem dropWhile_length_le {α : Type} (p : α → Bool) :
    ∀ l : List α, (l.dropWhile p).length ≤ l.length := by
  intro l
  induction l with
  | nil => simp
  | cons a t ih =>
    by_cases h : p a
    · rw [List.dropWhile_cons_of_pos h]; exact le_trans ih (Nat.le_succ _)
    · rw [List.dropWhile_cons_of_neg h]

/-- The optimizer as the specification describes it: each maximal run of
consecutive single-qubit gate operations on the same qubit index is replaced
by at most one gate operation holding the application-order product of the
run's matrices (each later gate's matrix left-multiplies the running
product); a run whose product is the identity is dropped whole; every
non-gate operation is copied through unchanged in order, and a gate on
another qubit index simply starts its own maximal run. -/
def optimizerSpec : List COp → List COp
  | [] => []
  | COp.gate q m :: rest =>
    (if ((COp.gate q m :: rest).takeWhile (isGateOn q)).foldl
          (fun accM o => matOf o * accM) 1 = 1
     then []
     else [COp.gate q (((COp.gate q m :: rest).takeWhile (isGateOn q)).foldl
            (fun accM o => matOf o * accM) 1)]) ++
      optimizerSpec ((COp.gate q m :: rest).dropWhile (isGateOn q))
  | op :: rest => op :: optimizerSpec rest
termination_by l => l.length
decreasing_by
  · refine Nat.lt_succ_of_le ?_
    have hh : (COp.gate q m :: rest).dropWhile (isGateOn q) = rest.dropWhile (isGateOn q) := by
      simp [List.dropWhile_cons, isGateOn]
    rw [hh]
    exact dropWhile_length_le _ rest
  · simp

theorem mergeRun_eq_takeWhile_foldl (q : ℕ) :
    ∀ (l : List COp) (acc : Mat2),
      mergeRun q acc l =
        ((l.takeWhile (isGateOn q)).foldl (fun accM o => matOf o * accM) acc,
         l.dropWhile (isGateOn q)) := by
  intro l
  induction l with
  | nil => intro acc; rfl
  | cons op rest ih =>
    intro acc
    cases op with
    | gate q2 m =>
      by_cases hq : q2 = q
      · have hpos : isGateOn q (COp.gate q2 m) = true := by simp [isGateOn, hq]
        rw [List.takeWhile_cons_of_pos hpos, List.dropWhile_cons_of_pos hpos]
        simp only [mergeRun, if_pos hq, ih (m * acc), List.foldl_cons, matOf]
      · have hneg : ¬ isGateOn q (COp.gate q2 m) = true := by simp [isGateOn, hq]
        rw [List.takeWhile_cons_of_neg hneg, List.dropWhile_cons_of_neg hneg]
        simp [mergeRun, hq]
    | multiGate qs => simp [mergeRun, List.takeWhile_cons, List.dropWhile_cons, isGateOn]
    | measureOp q2 basis =>
      simp [mergeRun, List.takeWhile_cons, List.dropWhile_cons, isGateOn]
    | resetOp q2 => simp [mergeRun, List.takeWhile_cons, List.dropWhile_cons, isGateOn]

theorem optimizeOps_eq_optimizerSpec (l : List COp) : optimizeOps l = optimizerSpec l := by
  suffices h : ∀ (n : ℕ) (l2 : List COp), l2.length = n → optimizeOps l2 = optimizerSpec l2 from
    h l.length l rfl
  intro n
  induction n using Nat.strong_induction_on with
  | _ n ih =>
    intro l2 hn
    cases l2 with
    | nil => simp [optimizeOps, optimizerSpec]
    | cons op rest =>
      have hn2 : rest.length + 1 = n := by simpa using hn
      cases op with
      | gate q m =>
        have hpos : isGateOn q (COp.gate q m) = true := by simp [isGateOn]
        have hlt : (rest.dropWhile (isGateOn q)).length < n := by
          have := dropWhile_length_le (isGateOn q) rest
          omega
        have hrec : optimizeOps (rest.dropWhile (isGateOn q)) =
            optimizerSpec (rest.dropWhile (isGateOn q)) := ih _ hlt _ rfl
        rw [optimizeOps, optimizerSpec, mergeRun_eq_takeWhile_foldl,
          List.takeWhile_cons_of_pos hpos, List.dropWhile_cons_of_pos hpos]
        simp only [List.foldl_cons, matOf, mul_one]
        rw [hrec]
      | multiGate qs =>
        have hrec := ih rest.length (by omega) rest rfl
        rw [optimizeOps, optimizerSpec, hrec] <;> simp
      | measureOp q2 basis =>
        have hrec := ih rest.length (by omega) rest rfl
        rw [optimizeOps, optimizerSpec, hrec] <;> simp
      | resetOp q2 =>
        have hrec := ih rest.length (by omega) rest rfl
        rw [optimizeOps, optimizerSpec, hrec] <;> simp

unseal Rat.add Rat.mul Rat.inv Rat.sub in
/-- C5: the optimizer replaces each maximal run of consecutive single-qubit
gate operations on the same qubit index with at most one gate operation whose
matrix is the application-order product of the run (each later gate's matrix
left-multiplying the running product), drops a run whose product is the
identity, and copies every non-gate operation (and, as its own run, every
gate on another qubit) through unchanged in order, leaving the qubits
untouched: `optimize_circuit` coincides with the specification-level
`optimizerSpec`, and in particular H followed by H on the same qubit is
elided entirely. -/
theorem optimize_circuit_spec (c : CircuitState) :
    optimize_circuit c = { c with operations := optimizerSpec c.operations } ∧
    optimize_circuit ⟨c.qubits, [COp.gate 0 Hmat, COp.gate 0 Hmat]⟩ =
      ⟨c.qubits, []⟩ := by
  constructor
  · unfold optimize_circuit
    rw [optimizeOps_eq_optimizerSpec]
  · unfold optimize_circuit
    have h1 : mergeRun 0 Hmat [COp.gate 0 Hmat] = (Hmat * Hmat, []) := rfl
    have h2 : Hmat * Hmat = 1 := by decide
    have h3 : optimizeOps [COp.gate 0 Hmat, COp.gate 0 Hmat] = [] := by
      rw [optimizeOps, h1]
      simp [h2, optimizeOps]
    rw [h3]

/-- Dynamically-shaped complex matrices (numpy arrays); the shape is carried
alongside as data wherever the code needs it. -/
def NMat : Type := ℕ → ℕ → K4

/-- View a 2×2 matrix as a numpy-style array (entries outside the 2×2 block
are never read through a tracked shape of 2). -/
def toNMat (M : Mat2) : NMat := fun i j =>
  if h : i < 2 ∧ j < 2 then M ⟨i, h.1⟩ ⟨j, h.2⟩ else 0

/-- Embedding of `np.kron` on shape-tracked square matrices:
`(A ⊗ B)[i, j] = A[i / dB, j / dB] * B[i % dB, j % dB]`, with shape dA·dB. -/
def kronN (A B : ℕ × NMat) : ℕ × NMat :=
  (A.1 * B.1, fun i j => A.2 (i / B.1) (j / B.1) * B.2 (i % B.1) (j % B.1))

/-- The factor at register position `i` of `Stabilizer.build_operator`
(stabilizer.py lines 23-30): the named Pauli when `i` is a listed qubit index
(first occurrence, as `list.index` returns), the 2×2 identity `np.eye(2)`
otherwise. -/
def factorAt (indices : List ℕ) (paulis : List String) (i : ℕ) : Except String (ℕ × NMat) :=
  if indices.contains i then
    match pauli_operator (paulis.getD (indices.indexOf i) "") with
    | .error e => .error e
    | .ok M => .ok (2, toNMat M)
  else .ok (2, toNMat 1)

/-- Left-to-right effectful map, the evaluation order of the Python loop
building `op_list` (the first raised `ValueError` propagates). -/
def mapE (f : ℕ → Except String (ℕ × NMat)) : List ℕ → Except String (List (ℕ × NMat))
  | [] => .ok []
  | a :: t =>
    match f a with
    | .error e => .error e
    | .ok b =>
      match mapE f t with
      | .error e => .error e
      | .ok bt => .ok (b :: bt)

/-- Embedding of `Stabilizer.build_operator`: `total = max(qubit_indices) + 1`
(`max` raises on an empty list), one factor per register position
`0 … total-1`, combined by `reduce(np.kron, op_list)` — a left fold seeded
with the first factor (`reduce` raises on an empty list). -/
def build_operator (indices : List ℕ) (paulis : List String) : Except String (ℕ × NMat) :=
  match indices.max? with
  | none => .error "max() arg is an empty sequence"
  | some mx =>
    match mapE (factorAt indices paulis) (List.range (mx + 1)) with
    | .error e => .error e
    | .ok [] => .error "reduce() of empty iterable with no initial value"
    | .ok (h :: t) => .ok (t.foldl kronN h)

/-- Embedding of the `Stabilizer` constructor: validates the list lengths
(raising `ValueError` on mismatch, before any operator is built), then builds
the full-register operator. -/
def Stabilizer.init (qubit_indices : List ℕ) (paulis : List String) :
    Except String (ℕ × NMat) :=
  if qubit_indices.length ≠ paulis.length then
    .error "qubit_indices and paulis must have equal length."
  else build_operator qubit_indices paulis

/-- `np.vdot u v = Σ conj(u[i])·v[i]` over vectors of length n. -/
def vdotN (n : ℕ) (u v : ℕ → K4) : K4 := ∑ i in Finset.range n, star (u i) * v i

/-- Matrix-vector product `A @ v` for an n×n operator. -/
def matVecN (n : ℕ) (A : NMat) (v : ℕ → K4) : ℕ → K4 :=
  fun i => ∑ j in Finset.range n, A i j * v j

/-- Embedding of `Stabilizer.measure`: the expectation value
`⟨state|S|state⟩ = np.vdot(state, operator @ state)`. -/
def stabMeasure (s : ℕ × NMat) (state : ℕ → K4) : K4 :=
  vdotN s.1 state (matVecN s.1 s.2 state)

/-- Embedding of `StabilizerCode.measure_syndrome`: one bit per stabilizer in
insertion order, 0 when the real part of the expectation value is strictly
positive and 1 otherwise. -/
def measure_syndrome (stabs : List (ℕ × NMat)) (state : ℕ → K4) : List ℕ :=
  stabs.map (fun s => if (K4.rePart (stabMeasure s state)).isPos then 0 else 1)

/-- C7: `measure_syndrome` returns one bit per added stabilizer, in order: the
k-th bit is 0 exactly when the real part of the k-th stabilizer's expectation
value ⟨state|S|state⟩ is strictly greater than 0, and 1 otherwise (exact zero
gives 1); consequently on a normalized state that is a +1 eigenstate of every
declared stabilizer the returned syndrome vector is all zeros. -/
theorem measure_syndrome_spec (stabs : List (ℕ × NMat)) (state : ℕ → K4) :
    (measure_syndrome stabs state).length = stabs.length ∧
    (∀ k : ℕ, (measure_syndrome stabs state)[k]? =
      (stabs[k]?).map (fun s =>
        if (K4.rePart (stabMeasure s state)).isPos then 0 else 1)) ∧
    ((∀ s ∈ stabs, (∀ i < s.1, matVecN s.1 s.2 state i = state i) ∧
        vdotN s.1 state state = 1) →
      measure_syndrome stabs state = List.replicate stabs.length 0) := by
  refine ⟨by simp [measure_syndrome], fun k => by simp [measure_syndrome], ?_⟩
  intro hyp
  have hzero : ∀ s ∈ stabs,
      (if (K4.rePart (stabMeasure s state)).isPos then (0 : ℕ) else 1) = 0 := by
    intro s hs
    obtain ⟨heig, hnorm⟩ := hyp s hs
    have hexp : stabMeasure s state = 1 := by
      unfold stabMeasure
      have : vdotN s.1 state (matVecN s.1 s.2 state) = vdotN s.1 state state := by
        unfold vdotN
        refine Finset.sum_congr rfl fun i hi => ?_
        rw [heig i (Finset.mem_range.mp hi)]
      rw [this, hnorm]
    rw [hexp]
    simp [K4.rePart, Rs2.isPos]
  refine List.eq_replicate_iff.mpr ⟨by simp [measure_syndrome], ?_⟩
  intro b hb
  simp only [measure_syndrome, List.mem_map] at hb
  obtain ⟨s, hs, rfl⟩ := hb
  exact hzero s hs

unseal Rat.add Rat.mul Rat.inv Rat.sub in
/-- Witness for C7: the single-qubit Z stabilizer measured on |0⟩ (a
normalized +1 eigenstate of Z) yields the all-zero syndrome [0]. -/
theorem measure_syndrome_spec_witness :
    measure_syndrome [(2, toNMat pauliZ)] (fun i => if i = 0 then 1 else 0) = [0] := by
  have h := (measure_syndrome_spec [(2, toNMat pauliZ)]
    (fun i => if i = 0 then 1 else 0)).2.2 (by decide)
  exact h

theorem foldl_kronN_dim (t : List (ℕ × NMat)) :
    ∀ h : ℕ × NMat, (∀ B ∈ t, B.1 = 2) →
      (t.foldl kronN h).1 = h.1 * 2 ^ t.length := by
  induction t with
  | nil => intro h _; simp
  | cons B t ih =>
    intro h hB
    rw [List.foldl_cons, ih (kronN h B) (fun x hx => hB x (List.mem_cons_of_mem _ hx))]
    have h2 : B.1 = 2 := hB B (List.mem_cons_self _ _)
    simp only [kronN, h2, List.length_cons, pow_succ]
    ring

theorem foldl_kronN_entry (t : List (ℕ × NMat)) :
    ∀ h : ℕ × NMat, (∀ B ∈ t, B.1 = 2) →
      ∀ i j : ℕ, (t.foldl kronN h).2 i j =
        h.2 (i / 2 ^ t.length) (j / 2 ^ t.length) *
          ∏ k in Finset.range t.length,
            (t.getD k (2, fun _ _ => 0)).2
              ((i / 2 ^ (t.length - 1 - k)) % 2) ((j / 2 ^ (t.length - 1 - k)) % 2) := by
  induction t with
  | nil => intro h _ i j; simp [NMat]
  | cons B t ih =>
    intro h hB i j
    have h2 : B.1 = 2 := hB B (List.mem_cons_self _ _)
    rw [List.foldl_cons, ih (kronN h B) (fun x hx => hB x (List.mem_cons_of_mem _ hx)) i j]
    have hdiv : ∀ x : ℕ, x / 2 ^ t.length / 2 = x / 2 ^ (t.length + 1) := by
      intro x
      rw [Nat.div_div_eq_div_mul, pow_succ]
    have hexp : ∀ k : ℕ, t.length + 1 - 1 - (k + 1) = t.length - 1 - k := by
      intro k; omega
    have hexp0 : t.length + 1 - 1 - 0 = t.length := by omega
    simp only [kronN, h2, List.length_cons]
    rw [Finset.prod_range_succ']
    simp only [List.getD_cons_succ, List.getD_cons_zero, hexp, hexp0, hdiv]
    ring

/-- The specification's per-position tensor factor: the named Pauli matrix at
each listed qubit index (first occurrence), the 2×2 identity elsewhere. -/
def stabFactor (indices : List ℕ) (paulis : List String) (k : ℕ) : Mat2 :=
  if indices.contains k then
    match pauli_operator (paulis.getD (indices.indexOf k) "") with
    | .ok M => M
    | .error _ => 1
  else 1

theorem factorAt_ok (indices : List ℕ) (paulis : List String)
    (hlen : indices.length = paulis.length)
    (hval : ∀ p ∈ paulis, (pauli_operator p).isOk = true) (k : ℕ) :
    factorAt indices paulis k = .ok (2, toNMat (stabFactor indices paulis k)) := by
  unfold factorAt stabFactor
  by_cases hc : indices.contains k
  · have hmem : paulis.getD (indices.indexOf k) "" ∈ paulis := by
      have hidx : indices.indexOf k < indices.length :=
        List.indexOf_lt_length.mpr (by simpa using hc)
      rw [hlen] at hidx
      rw [List.getD_eq_getElem _ _ hidx]
      exact List.getElem_mem _
    have := hval _ hmem
    rw [if_pos hc, if_pos hc]
    cases hok : pauli_operator (paulis.getD (indices.indexOf k) "") with
    | ok M => rfl
    | error e => rw [hok] at this; simp [Except.isOk, Except.toBool] at this
  · rw [if_neg hc, if_neg hc]

theorem mapE_all_ok (f : ℕ → Except String (ℕ × NMat)) (g : ℕ → ℕ × NMat) :
    ∀ l : List ℕ, (∀ a ∈ l, f a = .ok (g a)) → mapE f l = .ok (l.map g) := by
  intro l
  induction l with
  | nil => intro _; rfl
  | cons a t ih =>
    intro hl
    have ha : f a = .ok (g a) := hl a (List.mem_cons_self _ _)
    have ht : mapE f t = .ok (t.map g) := ih (fun x hx => hl x (List.mem_cons_of_mem _ hx))
    simp [mapE, ha, ht]

/-- C6: for equal-length, nonempty index/Pauli lists naming valid Paulis, the
`Stabilizer` constructor builds the operator as the Kronecker product over
register positions 0 … max(qubitIndices) of the named Pauli at each listed
index and the 2×2 identity elsewhere — its tracked numpy shape is
2^(max+1), and every entry in range equals the product over positions of the
corresponding factor entry at that position's binary digits — while lists of
different lengths fail with the validation `ValueError` and build no
operator. -/
theorem stabilizer_init_spec (indices : List ℕ) (paulis : List String) (mx : ℕ)
    (hlen : indices.length = paulis.length)
    (hmax : indices.max? = some mx)
    (hval : ∀ p ∈ paulis, (pauli_operator p).isOk = true) :
    (∃ op : NMat,
      Stabilizer.init indices paulis = .ok (2 ^ (mx + 1), op) ∧
      ∀ i j : ℕ, i < 2 ^ (mx + 1) → j < 2 ^ (mx + 1) →
        op i j = ∏ k in Finset.range (mx + 1),
          toNMat (stabFactor indices paulis k)
            ((i / 2 ^ (mx - k)) % 2) ((j / 2 ^ (mx - k)) % 2)) ∧
    (∀ (ind2 : List ℕ) (p2 : List String), ind2.length ≠ p2.length →
      Stabilizer.init ind2 p2 =
        .error "qubit_indices and paulis must have equal length.") := by
  constructor
  · have hg : ∀ a ∈ List.range (mx + 1), factorAt indices paulis a =
        .ok ((fun k => (2, toNMat (stabFactor indices paulis k))) a) :=
      fun a _ => factorAt_ok indices paulis hlen hval a
    have hmapE := mapE_all_ok (factorAt indices paulis)
      (fun k => (2, toNMat (stabFactor indices paulis k))) (List.range (mx + 1)) hg
    have hsplit : List.range (mx + 1) = 0 :: (List.range mx).map Nat.succ :=
      List.range_succ_eq_map mx
    set g : ℕ → ℕ × NMat := fun k => (2, toNMat (stabFactor indices paulis k)) with hgdef
    have hmap : (List.range (mx + 1)).map g =
        g 0 :: (List.range mx).map (fun k => g (k + 1)) := by
      rw [hsplit, List.map_cons, List.map_map]
      rfl
    have htdim : ∀ B ∈ (List.range mx).map (fun k => g (k + 1)), B.1 = 2 := by
      intro B hB
      obtain ⟨k, _, rfl⟩ := List.mem_map.mp hB
      rfl
    refine ⟨(((List.range mx).map (fun k => g (k + 1))).foldl kronN (g 0)).2, ?_, ?_⟩
    · have hne : ¬ indices.length ≠ paulis.length := by omega
      simp only [Stabilizer.init, build_operator, if_neg hne, hmax, hmapE, hmap]
      refine congrArg Except.ok ?_
      have hdim := foldl_kronN_dim ((List.range mx).map (fun k => g (k + 1))) (g 0) htdim
      refine Prod.ext ?_ rfl
      rw [hdim]
      have hfst : (g 0).1 = 2 := rfl
      rw [hfst, List.length_map, List.length_range, pow_succ]
      ring
    · intro i j hi hj
      rw [foldl_kronN_entry _ (g 0) htdim i j]
      rw [Finset.prod_range_succ']
      have hlen2 : ((List.range mx).map (fun k => g (k + 1))).length = mx := by simp
      rw [hlen2]
      have hgetD : ∀ k ∈ Finset.range mx,
          (((List.range mx).map (fun k => g (k + 1))).getD k (2, fun _ _ => 0)).2
              ((i / 2 ^ (mx - 1 - k)) % 2) ((j / 2 ^ (mx - 1 - k)) % 2) =
            toNMat (stabFactor indices paulis (k + 1))
              ((i / 2 ^ (mx - (k + 1))) % 2) ((j / 2 ^ (mx - (k + 1))) % 2) := by
        intro k hk
        have hk2 : k < mx := Finset.mem_range.mp hk
        have : ((List.range mx).map (fun k => g (k + 1))).getD k (2, fun _ _ => 0) =
            g (k + 1) := by
          rw [List.getD_eq_getElem _ _ (by simpa using hk2)]
          simp
        rw [this]
        have : mx - 1 - k = mx - (k + 1) := by omega
        rw [this]
      rw [Finset.prod_congr rfl hgetD]
      have hi2 : i / 2 ^ mx < 2 := by
        have : i < 2 ^ mx * 2 := by rw [← pow_succ]; exact hi
        exact Nat.div_lt_of_lt_mul this
      have hj2 : j / 2 ^ mx < 2 := by
        have : j < 2 ^ mx * 2 := by rw [← pow_succ]; exact hj
        exact Nat.div_lt_of_lt_mul this
      have h0 : mx - 0 = mx := by omega
      rw [h0, Nat.mod_eq_of_lt hi2, Nat.mod_eq_of_lt hj2]
      ring
  · intro ind2 p2 hne
    unfold Stabilizer.init
    rw [if_pos hne]

unseal Rat.add Rat.mul Rat.inv Rat.sub in
/-- Witness for C6 on the two-qubit stabilizer X⊗Z (indices [0, 1]), plus the
mismatched-length validation failure. -/
theorem stabilizer_init_spec_witness :
    (∃ op : NMat,
      Stabilizer.init [0, 1] ["X", "Z"] = .ok (2 ^ 2, op) ∧
      ∀ i j : ℕ, i < 2 ^ 2 → j < 2 ^ 2 →
        op i j = ∏ k in Finset.range 2,
          toNMat (stabFactor [0, 1] ["X", "Z"] k)
            ((i / 2 ^ (1 - k)) % 2) ((j / 2 ^ (1 - k)) % 2)) ∧
    Stabilizer.init [0] ["X", "Z"] =
      .error "qubit_indices and paulis must have equal length." := by
  have h := stabilizer_init_spec [0, 1] ["X", "Z"] 1 (by decide) (by decide) (by decide)
  exact ⟨h.1, h.2 [0] ["X", "Z"] (by decide)⟩

unseal Rat.add Rat.mul Rat.inv Rat.sub in
/-- C8: measuring a qubit whose state is |0⟩ = [1, 0] in the Z basis returns
outcome 0 for every draw r ∈ [0, 1) of the random source (outcome 0 has
probability 1), and the collapsed state is [1, 0] again. -/
theorem measure_zero_state_deterministic (r : ℚ) (hr0 : 0 ≤ r) (hr1 : r < 1) :
    measureTetron "Z" e0 r = .ok (0, e0) := by
  have hz : asciiUpper "Z" = "Z" := rfl
  simp only [measureTetron, hz, if_pos rfl]
  have hsum : Rs2.add (K4.normSq (e0 0)) (K4.normSq (e0 1)) = (⟨1, 0⟩ : Rs2) := by decide
  rw [if_pos hsum]
  have hp0 : K4.normSq (e0 0) = (⟨1, 0⟩ : Rs2) := by decide
  rw [hp0]
  have hlt : Rs2.ltQ r ⟨1, 0⟩ = true := by
    unfold Rs2.ltQ Rs2.isPos
    simp only [if_pos rfl]
    simp [sub_pos, hr1]
  rw [hlt]
  simp

unseal Rat.add Rat.mul Rat.inv Rat.sub in
/-- Witness for C8 at the concrete draw r = 2/3. -/
theorem measure_zero_state_deterministic_witness :
    measureTetron "Z" e0 (2/3) = .ok (0, e0) :=
  measure_zero_state_deterministic (2/3) (by decide) (by decide)

/-- The state after any successful `Tetron.measure` is one of the four exact
collapse targets. -/
theorem measureTetron_ok_state (basis : String) (st : Vec2) (r : ℚ) (o : ℕ) (st2 : Vec2)
    (h : measureTetron basis st r = .ok (o, st2)) :
    st2 = e0 ∨ st2 = e1 ∨ st2 = xPlus ∨ st2 = xMinus := by
  unfold measureTetron at h
  by_cases hz : asciiUpper basis = "Z"
  · rw [if_pos hz] at h
    by_cases hs : Rs2.add (K4.normSq (st 0)) (K4.normSq (st 1)) = (⟨1, 0⟩ : Rs2)
    · rw [if_pos hs] at h
      by_cases hlt : Rs2.ltQ r (K4.normSq (st 0)) = true
      · simp only [hlt, if_pos rfl, Except.ok.injEq, Prod.mk.injEq] at h
        exact Or.inl h.2.symm
      · simp only [hlt] at h
        simp only [if_neg, Except.ok.injEq, Prod.mk.injEq] at h
        exact Or.inr (Or.inl h.2.symm)
    · rw [if_neg hs] at h
      simp at h
  · rw [if_neg hz] at h
    by_cases hx : asciiUpper basis = "X"
    · rw [if_pos hx] at h
      by_cases hs : Rs2.add (K4.normSq (K4.invSqrt2 * (st 0 + st 1)))
          (K4.normSq (K4.invSqrt2 * (st 0 - st 1))) = (⟨1, 0⟩ : Rs2)
      · rw [if_pos hs] at h
        by_cases hlt : Rs2.ltQ r (K4.normSq (K4.invSqrt2 * (st 0 + st 1))) = true
        · simp only [hlt, if_pos rfl, Except.ok.injEq, Prod.mk.injEq] at h
          exact Or.inr (Or.inr (Or.inl h.2.symm))
        · simp only [hlt] at h
          simp only [if_neg, Except.ok.injEq, Prod.mk.injEq] at h
          exact Or.inr (Or.inr (Or.inr h.2.symm))
      · rw [if_neg hs] at h
        simp at h
    · rw [if_neg hx] at h
      simp at h

/-- Applying a unitary gate matrix preserves the squared norm ⟨ψ|ψ⟩. -/
theorem vdot2_applyGate (U : Mat2) (st : Vec2) (hU : Matrix.conjTranspose U * U = 1) :
    vdot2 (applyGate U st) (applyGate U st) = vdot2 st st := by
  have h00 := congrFun (congrFun hU 0) 0
  have h01 := congrFun (congrFun hU 0) 1
  have h10 := congrFun (congrFun hU 1) 0
  have h11 := congrFun (congrFun hU 1) 1
  simp only [Matrix.mul_apply, Matrix.conjTranspose_apply, Matrix.one_apply,
    Fin.sum_univ_two, Fin.isValue, ite_true, ite_false, reduceCtorEq,
    if_true, if_false, one_ne_zero, zero_ne_one] at h00 h01 h10 h11
  simp only [vdot2, applyGate, Matrix.mulVec, Matrix.dotProduct, Fin.sum_univ_two,
    star_add, star_mul']
  linear_combination (star (st 0) * st 0) * h00 + (star (st 0) * st 1) * h01 +
    (star (st 1) * st 0) * h10 + (star (st 1) * st 1) * h11

/-- Outer product |v⟩⟨v| = `np.outer(state, state.conj())`, the density
matrix the source recomputes from a pure state. -/
def outerK (v : Vec2) : Mat2 := Matrix.of fun i j => v i * star (v j)

/-- The full `Tetron` object state: the statevector, the density-matrix mode
flag `use_dm`, and the optional density matrix `dm` (qubit.py lines 23-29). -/
structure Tetron where
  useDm : Bool
  state : Vec2
  dm : Option Mat2

/-- `Tetron.__init__`: the |0⟩ state, with
`dm = np.outer(state, state.conj())` when density-matrix mode is enabled and
`None` otherwise. -/
def Tetron.init (useDm : Bool) : Tetron :=
  { useDm := useDm, state := e0, dm := if useDm then some (outerK e0) else none }

/-- The full `Tetron.apply_single_qubit_gate` (qubit.py lines 31-38): when
`use_dm` is set and `dm` is present it updates ρ ← U·ρ·U† and reassigns
`state` to the eigenvector column `eigenvecs[:, argmax(|eigenvals|)]` of the
`np.linalg.eig` decomposition of the new ρ; otherwise `state ← U·state` (the
`applyGate` update).  The eigendecomposition is an external numerical
routine over floats, so it is embedded as an explicit oracle `eig` returning
the chosen column; the only property of it anything here relies on is
`np.linalg.eig`'s documented guarantee that the eigenvector columns are
normalized (unit norm). -/
def applyGateFull (eig : Mat2 → Vec2) (U : Mat2) (t : Tetron) : Tetron :=
  match t.useDm, t.dm with
  | true, some ρ =>
    { t with dm := some (U * ρ * Matrix.conjTranspose U),
             state := eig (U * ρ * Matrix.conjTranspose U) }
  | _, _ => { t with state := applyGate U t.state }

/-- The states a `Tetron` object can be in: created in |0⟩ (in either
representation mode), then mutated only by `apply_single_qubit_gate` (whose
argument, for every gate variant the library produces — Clifford, T,
braiding, and the optimizer's Generic merge outputs, which wrap products of
unitaries — is unitary), by `measure` collapse (which recomputes `dm` from
the collapsed state in density-matrix mode, qubit.py lines 62-63), and by
`reset` (likewise, qubit.py lines 70-72). -/
inductive TetronReachable (eig : Mat2 → Vec2) : Tetron → Prop where
  | init (b : Bool) : TetronReachable eig (Tetron.init b)
  | gate (U : Mat2) (t : Tetron) : TetronReachable eig t →
      Matrix.conjTranspose U * U = 1 → TetronReachable eig (applyGateFull eig U t)
  | measured (basis : String) (r : ℚ) (o : ℕ) (st2 : Vec2) (t : Tetron) :
      TetronReachable eig t → measureTetron basis t.state r = .ok (o, st2) →
      TetronReachable eig
        { t with state := st2, dm := if t.useDm then some (outerK st2) else t.dm }
  | resetStep (t : Tetron) : TetronReachable eig t →
      TetronReachable eig
        { t with state := e0, dm := if t.useDm then some (outerK e0) else t.dm }

unseal Rat.add Rat.mul Rat.inv Rat.sub in
/-- C2: the invariant ⟨state|state⟩ = 1 (i.e. ‖state‖₂ = 1) holds for every
reachable `Tetron` state, in both representation modes, before and after
every gate application: in the statevector branch because every gate matrix
the library applies is unitary (H, S, T are unitary and products of
unitaries are unitary, which covers the Generic/merged matrices), and in the
density-matrix branch because the reassigned state is an eigenvector column
of `np.linalg.eig`, which its contract guarantees to be unit-norm (the
oracle hypothesis `heig`); and after every measurement and every reset, the
collapse producing an exactly normalized state from arbitrary input. -/
theorem tetron_norm_invariant (eig : Mat2 → Vec2)
    (heig : ∀ ρ : Mat2, vdot2 (eig ρ) (eig ρ) = 1) :
    (∀ t : Tetron, TetronReachable eig t → vdot2 t.state t.state = 1) ∧
    (∀ (basis : String) (st : Vec2) (r : ℚ) (o : ℕ) (st2 : Vec2),
      measureTetron basis st r = .ok (o, st2) → vdot2 st2 st2 = 1) ∧
    (∀ st : Vec2, vdot2 (resetTetron st) (resetTetron st) = 1) ∧
    Matrix.conjTranspose Hmat * Hmat = 1 ∧
    Matrix.conjTranspose Smat * Smat = 1 ∧
    Matrix.conjTranspose Tmat * Tmat = 1 ∧
    (∀ U V : Mat2, Matrix.conjTranspose U * U = 1 → Matrix.conjTranspose V * V = 1 →
      Matrix.conjTranspose (U * V) * (U * V) = 1) := by
  have hmeasure : ∀ (basis : String) (st : Vec2) (r : ℚ) (o : ℕ) (st2 : Vec2),
      measureTetron basis st r = .ok (o, st2) → vdot2 st2 st2 = 1 := by
    intro basis st r o st2 h
    rcases measureTetron_ok_state basis st r o st2 h with h2 | h2 | h2 | h2 <;>
      rw [h2] <;> decide
  refine ⟨?_, hmeasure, fun st => by show vdot2 e0 e0 = 1; decide, by decide, by decide,
    by decide, ?_⟩
  · intro t hreach
    induction hreach with
    | init b => show vdot2 e0 e0 = 1; decide
    | gate U t2 hr hU ih =>
      obtain ⟨b, st, dm⟩ := t2
      cases b with
      | true =>
        cases dm with
        | some ρ => exact heig (U * ρ * Matrix.conjTranspose U)
        | none =>
          show vdot2 (applyGate U st) (applyGate U st) = 1
          rw [vdot2_applyGate U st hU]
          exact ih
      | false =>
        show vdot2 (applyGate U st) (applyGate U st) = 1
        rw [vdot2_applyGate U st hU]
        exact ih
    | measured basis r o st2 t2 hr hok ih => exact hmeasure basis t2.state r o st2 hok
    | resetStep t2 hr ih => show vdot2 e0 e0 = 1; decide
  · intro U V hU hV
    calc Matrix.conjTranspose (U * V) * (U * V)
        = Matrix.conjTranspose V * (Matrix.conjTranspose U * U) * V := by
          rw [Matrix.conjTranspose_mul]
          noncomm_ring
      _ = 1 := by rw [hU, Matrix.mul_one, hV]

unseal Rat.add Rat.mul Rat.inv Rat.sub in
/-- Witness for C2, exercising the density-matrix branch: applying H to a
Tetron created with `use_density_matrix=True` (as in example_usage.py), with
a concrete eigenvector oracle satisfying the unit-norm contract, leaves the
state norm at 1. -/
theorem tetron_norm_invariant_witness :
    vdot2 (applyGateFull (fun _ => e0) Hmat (Tetron.init true)).state
      (applyGateFull (fun _ => e0) Hmat (Tetron.init true)).state = 1 :=
  (tetron_norm_invariant (fun _ => e0) (fun ρ => by show vdot2 e0 e0 = 1; decide)).1
    (applyGateFull (fun _ => e0) Hmat (Tetron.init true))
    (TetronReachable.gate Hmat (Tetron.init true) (TetronReachable.init true) (by decide))

/-- The canonical Pauli matrices over ℂ, the values `pauli_operator` hands to
`BraidingGate` (`gates.py` line 19); the braiding gate's entries cos θ, sin θ
range over all reals, so this part of the code is embedded over ℂ. -/
def pauliCI : Matrix (Fin 2) (Fin 2) ℂ := !![1, 0; 0, 1]

def pauliCX : Matrix (Fin 2) (Fin 2) ℂ := !![0, 1; 1, 0]

def pauliCY : Matrix (Fin 2) (Fin 2) ℂ := !![0, -Complex.I; Complex.I, 0]

def pauliCZ : Matrix (Fin 2) (Fin 2) ℂ := !![1, 0; 0, -1]

/-- The generator lookup in `BraidingGate.__init__`:
`pauli_operator(generator.upper())`, over ℂ. -/
def braidingGenerator (generator : String) : Except String (Matrix (Fin 2) (Fin 2) ℂ) :=
  let u := asciiUpper generator
  if u = "I" then .ok pauliCI
  else if u = "X" then .ok pauliCX
  else if u = "Y" then .ok pauliCY
  else if u = "Z" then .ok pauliCZ
  else .error "Unsupported Pauli operator. Choose from I, X, Y, Z."

/-- Embedding of `BraidingGate.matrix()`: the matrix exponential
`expm(-1j * theta * generator)` of scipy, as the mathematical exponential of
the matrix `(-iθ) • G`. -/
noncomputable def braidingMatrix (θ : ℝ) (G : Matrix (Fin 2) (Fin 2) ℂ) :
    Matrix (Fin 2) (Fin 2) ℂ :=
  NormedSpace.exp ℂ ((-(θ : ℂ) * Complex.I) • G)

theorem exp_units_conj_diag (U : (Matrix (Fin 2) (Fin 2) ℂ)ˣ) (d0 d1 : ℂ) :
    NormedSpace.exp ℂ ((U : Matrix (Fin 2) (Fin 2) ℂ) * Matrix.diagonal ![d0, d1] *
        ((U⁻¹ : (Matrix (Fin 2) (Fin 2) ℂ)ˣ) : Matrix (Fin 2) (Fin 2) ℂ)) =
      (U : Matrix (Fin 2) (Fin 2) ℂ) *
        Matrix.diagonal ![Complex.exp d0, Complex.exp d1] *
        ((U⁻¹ : (Matrix (Fin 2) (Fin 2) ℂ)ˣ) : Matrix (Fin 2) (Fin 2) ℂ) := by
  rw [Matrix.exp_units_conj, Matrix.exp_diagonal]
  have h : NormedSpace.exp ℂ ![d0, d1] = ![Complex.exp d0, Complex.exp d1] := by
    funext i
    rw [Pi.coe_exp]
    fin_cases i <;> simp [Complex.exp_eq_exp_ℂ]
  rw [h]

theorem exp_negI_theta (θ : ℝ) :
    Complex.exp (-(θ : ℂ) * Complex.I) =
      (Real.cos θ : ℂ) - (Real.sin θ : ℂ) * Complex.I := by
  rw [Complex.exp_mul_I, Complex.cos_neg, Complex.sin_neg, ← Complex.ofReal_cos,
    ← Complex.ofReal_sin]
  ring

theorem exp_posI_theta (θ : ℝ) :
    Complex.exp ((θ : ℂ) * Complex.I) =
      (Real.cos θ : ℂ) + (Real.sin θ : ℂ) * Complex.I := by
  rw [Complex.exp_mul_I, ← Complex.ofReal_cos, ← Complex.ofReal_sin]

/-- Closed form of the braiding matrix for the identity generator. -/
theorem braidingMatrix_pauliCI (θ : ℝ) :
    braidingMatrix θ pauliCI =
      (Real.cos θ : ℂ) • 1 - ((Real.sin θ : ℂ) * Complex.I) • pauliCI := by
  have hd : (-(θ : ℂ) * Complex.I) • pauliCI =
      Matrix.diagonal ![-(θ : ℂ) * Complex.I, -(θ : ℂ) * Complex.I] := by
    ext i j
    fin_cases i <;> fin_cases j <;> simp [pauliCI, Matrix.diagonal]
  rw [braidingMatrix, hd, Matrix.exp_diagonal]
  have h : NormedSpace.exp ℂ ![-(θ : ℂ) * Complex.I, -(θ : ℂ) * Complex.I] =
      ![Complex.exp (-(θ : ℂ) * Complex.I), Complex.exp (-(θ : ℂ) * Complex.I)] := by
    funext i
    rw [Pi.coe_exp]
    fin_cases i <;> simp [Complex.exp_eq_exp_ℂ]
  rw [h, exp_negI_theta]
  ext i j
  fin_cases i <;> fin_cases j <;>
    simp [Matrix.diagonal_apply, pauliCI, Matrix.one_apply] <;> ring

/-- Closed form of the braiding matrix for the Z generator (already
diagonal). -/
theorem braidingMatrix_pauliCZ (θ : ℝ) :
    braidingMatrix θ pauliCZ =
      (Real.cos θ : ℂ) • 1 - ((Real.sin θ : ℂ) * Complex.I) • pauliCZ := by
  have hd : (-(θ : ℂ) * Complex.I) • pauliCZ =
      Matrix.diagonal ![-(θ : ℂ) * Complex.I, (θ : ℂ) * Complex.I] := by
    ext i j
    fin_cases i <;> fin_cases j <;> simp [pauliCZ, Matrix.diagonal] <;> ring
  rw [braidingMatrix, hd, Matrix.exp_diagonal]
  have h : NormedSpace.exp ℂ ![-(θ : ℂ) * Complex.I, (θ : ℂ) * Complex.I] =
      ![Complex.exp (-(θ : ℂ) * Complex.I), Complex.exp ((θ : ℂ) * Complex.I)] := by
    funext i
    rw [Pi.coe_exp]
    fin_cases i <;> simp [Complex.exp_eq_exp_ℂ]
  rw [h, exp_negI_theta, exp_posI_theta]
  ext i j
  fin_cases i <;> fin_cases j <;>
    simp [Matrix.diagonal_apply, pauliCZ, Matrix.one_apply] <;> ring

/-- The X eigenvector matrix [[1, 1], [1, -1]] as a unit, with inverse
(1/2)·itself. -/
noncomputable def unitPX : (Matrix (Fin 2) (Fin 2) ℂ)ˣ where
  val := !![1, 1; 1, -1]
  inv := (1/2 : ℂ) • !![1, 1; 1, -1]
  val_inv := by
    ext i j
    fin_cases i <;> fin_cases j <;>
      simp [Matrix.mul_apply, Fin.sum_univ_two, Matrix.one_apply] <;> norm_num
  inv_val := by
    ext i j
    fin_cases i <;> fin_cases j <;>
      simp [Matrix.mul_apply, Fin.sum_univ_two, Matrix.one_apply] <;> norm_num

/-- Closed form of the braiding matrix for the X generator, via
diagonalization X = P·diag(1, -1)·P⁻¹. -/
theorem braidingMatrix_pauliCX (θ : ℝ) :
    braidingMatrix θ pauliCX =
      (Real.cos θ : ℂ) • 1 - ((Real.sin θ : ℂ) * Complex.I) • pauliCX := by
  have hconj : (-(θ : ℂ) * Complex.I) • pauliCX =
      (unitPX : Matrix (Fin 2) (Fin 2) ℂ) *
        Matrix.diagonal ![-(θ : ℂ) * Complex.I, (θ : ℂ) * Complex.I] *
        ((unitPX⁻¹ : (Matrix (Fin 2) (Fin 2) ℂ)ˣ) : Matrix (Fin 2) (Fin 2) ℂ) := by
    show _ = _ * _ * ((1/2 : ℂ) • !![1, 1; 1, -1])
    ext i j
    fin_cases i <;> fin_cases j <;>
      simp [pauliCX, unitPX, Matrix.mul_apply, Fin.sum_univ_two, Matrix.diagonal_apply,
        Matrix.vecMul, Matrix.dotProduct, Matrix.vecHead, Matrix.vecTail] <;>
      ring
  rw [braidingMatrix, hconj, exp_units_conj_diag, exp_negI_theta, exp_posI_theta]
  show (!![1, 1; 1, -1] : Matrix (Fin 2) (Fin 2) ℂ) * _ * ((1/2 : ℂ) • !![1, 1; 1, -1]) = _
  ext i j
  fin_cases i <;> fin_cases j <;>
    simp [Matrix.mul_apply, Fin.sum_univ_two, pauliCX, Matrix.diagonal_apply,
      Matrix.one_apply, Matrix.vecMul, Matrix.dotProduct, Matrix.vecHead, Matrix.vecTail] <;>
    ring

/-- The Y eigenvector matrix [[1, 1], [i, -i]] as a unit. -/
noncomputable def unitPY : (Matrix (Fin 2) (Fin 2) ℂ)ˣ where
  val := !![1, 1; Complex.I, -Complex.I]
  inv := (1/2 : ℂ) • !![1, -Complex.I; 1, Complex.I]
  val_inv := by
    ext i j
    fin_cases i <;> fin_cases j <;>
      simp [Matrix.mul_apply, Fin.sum_univ_two, Matrix.one_apply] <;>
      ring_nf <;> simp [Complex.I_sq] <;> ring_nf
  inv_val := by
    ext i j
    fin_cases i <;> fin_cases j <;>
      simp [Matrix.mul_apply, Fin.sum_univ_two, Matrix.one_apply] <;>
      ring_nf <;> simp [Complex.I_sq] <;> ring_nf

/-- Closed form of the braiding matrix for the Y generator, via
diagonalization Y = P·diag(1, -1)·P⁻¹. -/
theorem braidingMatrix_pauliCY (θ : ℝ) :
    braidingMatrix θ pauliCY =
      (Real.cos θ : ℂ) • 1 - ((Real.sin θ : ℂ) * Complex.I) • pauliCY := by
  have hconj : (-(θ : ℂ) * Complex.I) • pauliCY =
      (unitPY : Matrix (Fin 2) (Fin 2) ℂ) *
        Matrix.diagonal ![-(θ : ℂ) * Complex.I, (θ : ℂ) * Complex.I] *
        ((unitPY⁻¹ : (Matrix (Fin 2) (Fin 2) ℂ)ˣ) : Matrix (Fin 2) (Fin 2) ℂ) := by
    show _ = _ * _ * ((1/2 : ℂ) • !![1, -Complex.I; 1, Complex.I])
    ext i j
    fin_cases i <;> fin_cases j <;>
      simp [pauliCY, unitPY, Matrix.mul_apply, Fin.sum_univ_two, Matrix.diagonal_apply,
        Matrix.vecMul, Matrix.dotProduct, Matrix.vecHead, Matrix.vecTail] <;>
      ring_nf <;> simp [Complex.I_sq] <;> ring_nf
  rw [braidingMatrix, hconj, exp_units_conj_diag, exp_negI_theta, exp_posI_theta]
  show (!![1, 1; Complex.I, -Complex.I] : Matrix (Fin 2) (Fin 2) ℂ) * _ *
      ((1/2 : ℂ) • !![1, -Complex.I; 1, Complex.I]) = _
  ext i j
  fin_cases i <;> fin_cases j <;>
    simp [Matrix.mul_apply, Fin.sum_univ_two, pauliCY, Matrix.diagonal_apply,
      Matrix.one_apply, Matrix.vecMul, Matrix.dotProduct, Matrix.vecHead, Matrix.vecTail] <;>
    ring_nf <;> simp [Complex.I_sq] <;> ring_nf

/-- (a·1 + b·G)(a·1 - b·G) = (a² - b²)·1 whenever G² = 1. -/
theorem mul_conj_sq_one (a b : ℂ) (M : Matrix (Fin 2) (Fin 2) ℂ) (hM : M * M = 1) :
    (a • 1 + b • M) * (a • 1 - b • M) = (a * a - b * b) • (1 : Matrix (Fin 2) (Fin 2) ℂ) := by
  rw [Matrix.add_mul, Matrix.mul_sub, Matrix.mul_sub]
  simp only [Matrix.smul_mul, Matrix.mul_smul, Matrix.one_mul, Matrix.mul_one, smul_smul, hM]
  rw [mul_comm b a, sub_smul]
  abel

/-- The closed-form braiding matrix is unitary whenever the generator is
Hermitian and squares to the identity. -/
theorem closedform_unitary (θ : ℝ) (G : Matrix (Fin 2) (Fin 2) ℂ)
    (hH : Matrix.conjTranspose G = G) (hsq : G * G = 1) :
    Matrix.conjTranspose
        ((Real.cos θ : ℂ) • 1 - ((Real.sin θ : ℂ) * Complex.I) • G) *
      ((Real.cos θ : ℂ) • 1 - ((Real.sin θ : ℂ) * Complex.I) • G) = 1 := by
  have hc : star ((Real.cos θ : ℂ)) = (Real.cos θ : ℂ) := by
    rw [Complex.star_def, Complex.conj_ofReal]
  have hs : star ((Real.sin θ : ℂ) * Complex.I) = -((Real.sin θ : ℂ) * Complex.I) := by
    simp only [star_mul', Complex.star_def, Complex.conj_I, Complex.conj_ofReal]
    ring
  have hherm : Matrix.conjTranspose
      ((Real.cos θ : ℂ) • 1 - ((Real.sin θ : ℂ) * Complex.I) • G) =
      (Real.cos θ : ℂ) • 1 + ((Real.sin θ : ℂ) * Complex.I) • G := by
    rw [Matrix.conjTranspose_sub, Matrix.conjTranspose_smul, Matrix.conjTranspose_smul,
      Matrix.conjTranspose_one, hH, hc, hs, neg_smul, sub_neg_eq_add]
  rw [hherm, mul_conj_sq_one _ _ _ hsq]
  have hcs : (Real.cos θ : ℂ) * (Real.cos θ : ℂ) -
      ((Real.sin θ : ℂ) * Complex.I) * ((Real.sin θ : ℂ) * Complex.I) = 1 := by
    have h2 : ((Real.sin θ : ℂ)) ^ 2 + ((Real.cos θ : ℂ)) ^ 2 = 1 := by
      rw [← Complex.ofReal_pow, ← Complex.ofReal_pow, ← Complex.ofReal_add,
        Real.sin_sq_add_cos_sq, Complex.ofReal_one]
    linear_combination h2 + (-((Real.sin θ : ℂ)) ^ 2) * Complex.I_sq
  rw [hcs, one_smul]

/-- C4: for every angle θ and every Pauli generator axis G that
`BraidingGate` accepts, `matrix()` — the matrix exponential
exp(-iθG) — equals the closed form cos(θ)·I - i·sin(θ)·G; it is unitary
(U†U = 1), and at θ = 0 it is the identity for every axis. -/
theorem braiding_matrix_spec (θ : ℝ) (name : String) (G : Matrix (Fin 2) (Fin 2) ℂ)
    (hG : braidingGenerator name = .ok G) :
    braidingMatrix θ G =
      (Real.cos θ : ℂ) • 1 - ((Real.sin θ : ℂ) * Complex.I) • G ∧
    Matrix.conjTranspose (braidingMatrix θ G) * braidingMatrix θ G = 1 ∧
    braidingMatrix 0 G = 1 := by
  have hcases : G = pauliCI ∨ G = pauliCX ∨ G = pauliCY ∨ G = pauliCZ := by
    simp only [braidingGenerator] at hG
    split_ifs at hG <;> simp_all
  have hclosed : braidingMatrix θ G =
      (Real.cos θ : ℂ) • 1 - ((Real.sin θ : ℂ) * Complex.I) • G := by
    rcases hcases with rfl | rfl | rfl | rfl
    · exact braidingMatrix_pauliCI θ
    · exact braidingMatrix_pauliCX θ
    · exact braidingMatrix_pauliCY θ
    · exact braidingMatrix_pauliCZ θ
  have hherm : Matrix.conjTranspose G = G := by
    rcases hcases with rfl | rfl | rfl | rfl <;>
      · ext i j
        fin_cases i <;> fin_cases j <;> simp [pauliCI, pauliCX, pauliCY, pauliCZ]
  have hsq : G * G = 1 := by
    rcases hcases with rfl | rfl | rfl | rfl <;>
      · ext i j
        fin_cases i <;> fin_cases j <;>
          simp [pauliCI, pauliCX, pauliCY, pauliCZ, Matrix.mul_apply, Fin.sum_univ_two,
            Matrix.one_apply]
  refine ⟨hclosed, ?_, ?_⟩
  · rw [hclosed]
    exact closedform_unitary θ G hherm hsq
  · have hzero : (-((0 : ℝ) : ℂ) * Complex.I) • G = 0 := by
      push_cast
      simp
    rw [braidingMatrix, hzero]
    exact NormedSpace.exp_zero

/-- Witness for C4 at θ = 0 with the X axis. -/
theorem braiding_matrix_spec_witness :
    braidingMatrix 0 pauliCX = 1 ∧
    Matrix.conjTranspose (braidingMatrix 0 pauliCX) * braidingMatrix 0 pauliCX = 1 := by
  have h := braiding_matrix_spec 0 "x" pauliCX rfl
  exact ⟨h.2.2, h.2.1⟩

end TopoQ
